import Mathlib

/-!
Verification of the tripleo-repos yum/dnf configuration mutation engine
(`plugins/module_utils/tripleo_repos/yum_config/yum_config.py` and
`compose_repos.py`, plus the older variant
`tripleo-yum-config/tripleo_yum_config/yum_config.py`).

Shallow embedding conventions:
* An INI file is kept in parsed form: an ordered list of sections, each an
  ordered association list of `(option key, value)` pairs.  `configparser`
  stores sections and options in insertion-ordered dicts with unique keys;
  assignment to an existing key replaces its value in place, a new key is
  appended at the end.
* The filesystem is an ordered list of `(path, file state)` entries (the
  order models directory-listing order for `os.listdir`) together with the
  set of existing directories.  A file state records the parsed sections,
  whether the current user may write it (`os.access(.., W_OK)`), and whether
  its text parses as INI (`parseOk`; a parsed write always yields `true`).
* Exceptions are modelled with `Except`; because a Python exception can be
  raised after earlier loop iterations already wrote files, the error branch
  carries the filesystem as it was at raise time.
* `os.path.expandvars` (environment-variable expansion of option values) is
  an external stdlib collaborator; the engine is parameterized by a function
  `ex : String → String` standing for it.  On strings containing no `$` the
  real `expandvars` is the identity; theorems that need that fact take it as
  an explicit hypothesis on the concrete values involved.
* The HTTP world used by the `from_url` paths is a parameter
  `urls : String → Option IniDoc`: `none` models a failed / non-200 fetch,
  `some doc` a successful fetch whose body parsed to `doc`.
-/

/-- One section body: insertion-ordered `(option key, value)` pairs. -/
abbrev OptMap := List (String × String)

/-- A parsed INI document: insertion-ordered `(section name, body)` pairs. -/
abbrev IniDoc := List (String × OptMap)

/-- State of one file: parsed content, writability, parseability. -/
structure FileState where
  sections : IniDoc
  writable : Bool
  parseOk : Bool
deriving DecidableEq, Repr

/-- The filesystem: files in directory-listing order, plus directories. -/
structure Fs where
  files : List (String × FileState)
  dirs : List String
deriving DecidableEq, Repr

/-- The error taxonomy of `exceptions.py`, plus Python's `TypeError`. -/
inductive YumErr where
  | notFound
  | permissionDenied
  | parseError
  | invalidSection
  | invalidOption
  | urlError
  | composeError
  | typeError
deriving DecidableEq, Repr

/-- Boolean string membership (Python `x in list`). -/
def hasStr : List String → String → Bool
  | [], _ => false
  | x :: t, s => (x == s) || hasStr t s

/-- Does the association list bind this exact key? (Python `k in dict`). -/
def hasKey : OptMap → String → Bool
  | [], _ => false
  | e :: t, k => (e.1 == k) || hasKey t k

/-- Dict assignment `d[k] = v`: replace in place if the key is bound,
append at the end otherwise. -/
def setOption : OptMap → String → String → OptMap
  | [], k, v => [(k, v)]
  | e :: t, k, v => if e.1 == k then (k, v) :: t else e :: setOption t k v

/-- Dict lookup `d.get(k)`. -/
def lookupOpt : OptMap → String → Option String
  | [], _ => none
  | e :: t, k => if e.1 == k then some e.2 else lookupOpt t k

/-- Prefix test on character lists. -/
def listIsPrefix : List Char → List Char → Bool
  | [], _ => true
  | _ :: _, [] => false
  | a :: as, b :: bs => (a == b) && listIsPrefix as bs

/-- `a` is a prefix of `b`. -/
def strIsPrefixOf (a b : String) : Bool := listIsPrefix a.data b.data

/-- Python `s.endswith(e)`. -/
def strEndsWith (s e : String) : Bool :=
  listIsPrefix e.data.reverse s.data.reverse

/-- Does the string contain the character? -/
def strContains (s : String) (c : Char) : Bool := s.data.any (· == c)

/-- ASCII lowercasing of one character.  (Python's `str.lower` is full
Unicode; only ASCII occurs in the option keys and section names handled
here.) -/
def charLower (c : Char) : Char :=
  if 'A' ≤ c && c ≤ 'Z' then Char.ofNat (c.toNat + 32) else c

/-- Python `s.lower`, restricted to ASCII. -/
def strLower (s : String) : String := String.mk (s.data.map charLower)

/-- `configparser`'s default `optionxform`: option keys are lowercased. -/
def optionxform (k : String) : String := strLower k

/-- `config[section].update(updates)`: each update key goes through
`optionxform`, then ordinary dict assignment. -/
def updateOptions (o : OptMap) : OptMap → OptMap
  | [] => o
  | e :: t => updateOptions (setOption o (optionxform e.1) e.2) t

/-- Plain `dict.update(updates)` (no key transformation). -/
def dictUpdate (d : OptMap) : OptMap → OptMap
  | [] => d
  | e :: t => dictUpdate (setOption d e.1 e.2) t

/-- Expansion of every value of an option dict, as in the
`for k, v in set_dict.items(): set_dict[k] = os.path.expandvars(v)` loops. -/
def expandMap (ex : String → String) (m : OptMap) : OptMap :=
  m.map (fun e => (e.1, ex e.2))

/-- `config.sections()`. -/
def sectionNames (ss : IniDoc) : List String := ss.map (·.1)

/-- Body of a named section, if present (first match). -/
def getSection : IniDoc → String → Option OptMap
  | [], _ => none
  | e :: t, s => if e.1 == s then some e.2 else getSection t s

/-- `config[section].update(updates)` inside a parsed document: the named
section's body is updated, every other section is untouched.  (Parsed
documents never repeat a section name.) -/
def updateConfigSection (ss : IniDoc) (s : String) (m : OptMap) : IniDoc :=
  ss.map (fun e => if e.1 == s then (e.1, updateOptions e.2 m) else e)

/-- Path lookup in the filesystem. -/
def lookupFile : List (String × FileState) → String → Option FileState
  | [], _ => none
  | e :: t, p => if e.1 == p then some e.2 else lookupFile t p

def Fs.lookup (fs : Fs) (p : String) : Option FileState := lookupFile fs.files p

/-- Write (or create) the file at `p`: replace in place, append if new. -/
def writeFileList : List (String × FileState) → String → FileState →
    List (String × FileState)
  | [], p, st => [(p, st)]
  | e :: t, p, st => if e.1 == p then (p, st) :: t else e :: writeFileList t p st

def Fs.write (fs : Fs) (p : String) (st : FileState) : Fs :=
  ⟨writeFileList fs.files p st, fs.dirs⟩

/-- `os.path.isfile`. -/
def Fs.isfile (fs : Fs) (p : String) : Bool := (fs.lookup p).isSome

/-- `os.access(p, os.W_OK)`. -/
def Fs.accessW (fs : Fs) (p : String) : Bool :=
  match fs.lookup p with
  | some st => st.writable
  | none => false

/-- `os.path.isdir`. -/
def Fs.isdir (fs : Fs) (d : String) : Bool := hasStr fs.dirs d

/-- `os.path.join(d, f)` for a directory prefix. -/
def pathJoin (d f : String) : String := d ++ "/" ++ f

/-- `os.listdir d`: names (in listing order) of the files directly inside
directory `d`. -/
def Fs.listdir (fs : Fs) (d : String) : List String :=
  fs.files.filterMap (fun e =>
    if strIsPrefixOf (d ++ "/") e.1
       && !(strContains (e.1.drop (d.length + 1)) '/')
    then some (e.1.drop (d.length + 1)) else none)

/-- A freshly created empty file (`open(path, 'w+')`). -/
def emptyFile : FileState := ⟨[], true, true⟩

/-! ### Constants (`constants.py`) -/

def YUM_REPO_SUPPORTED_OPTIONS : List String :=
  ["baseurl", "cost", "enabled", "exclude", "excludepkgs", "gpgcheck",
   "gpgkey", "includepkgs", "metalink", "mirrorlist", "module_hotfixes",
   "name", "priority", "skip_if_unavailable"]

def YUM_REPO_DIR : String := "/etc/yum.repos.d"

def YUM_REPO_FILE_EXTENSION : String := ".repo"

def YUM_GLOBAL_CONFIG_FILE_PATH : String := "/etc/yum.conf"

/-! ### The base engine (`TripleOYumConfig`, plugins variant) -/

/-- `validated_file_path`: the file exists and is writable. -/
def validated_file_path (fs : Fs) (p : String) : Bool :=
  fs.isfile p && fs.accessW p

/-- The configuration held by a constructed `TripleOYumConfig` object.
(The `environment_file` constructor argument only seeds the process
environment consulted by `os.path.expandvars`; it is subsumed by the
`ex` parameter of the operations.) -/
structure TripleOYumConfig where
  valid_options : Option (List String)
  dir_path : Option String
  file_extension : Option String
deriving DecidableEq, Repr

/-- `TripleOYumConfig.__init__` (plugins variant): the only failure is a
configured directory that does not exist. -/
def TripleOYumConfig.init (valid_options : Option (List String))
    (dir_path file_extension : Option String) (fs : Fs) :
    Except YumErr TripleOYumConfig :=
  match dir_path with
  | some d =>
      if fs.isdir d then .ok ⟨valid_options, dir_path, file_extension⟩
      else .error .notFound
  | none => .ok ⟨valid_options, dir_path, file_extension⟩

/-- The guard `if self.valid_options: if not all(key in self.valid_options
for key in set_dict.keys()): raise InvalidOption` — `True` means the guard
passes.  (`None` and the empty list are falsy, so they disable checking.) -/
def checkValidOptions (vo : Option (List String)) (d : OptMap) : Bool :=
  match vo with
  | none => true
  | some wl => wl.isEmpty || d.all (fun e => hasStr wl e.1)

/-- The candidate paths tried by `_read_config_file`: the path itself, then
the path joined under the configured directory. -/
def fileCandidates (eng : TripleOYumConfig) (file_path : String) :
    List String :=
  match eng.dir_path with
  | some d => [file_path, pathJoin d file_path]
  | none => [file_path]

/-- First candidate accepted by `validated_file_path`, if any. -/
def findValid (fs : Fs) : List String → Option String
  | [] => none
  | p :: t => if validated_file_path fs p then some p else findValid fs t

/-- `_read_config_file`: resolve the path, parse, optionally require the
section to exist.  Returns the parsed document and the resolved path. -/
def readConfigFile (eng : TripleOYumConfig) (fs : Fs) (file_path : String)
    (sec : Option String) : Except YumErr (IniDoc × String) :=
  match findValid fs (fileCandidates eng file_path) with
  | none => .error .notFound
  | some valid =>
    match fs.lookup valid with
    | none => .error .notFound
    | some st =>
      if st.parseOk then
        match sec with
        | some s =>
            if hasStr (sectionNames st.sections) s then .ok (st.sections, valid)
            else .error .invalidSection
        | none => .ok (st.sections, valid)
      else .error .parseError

/-- `_get_config_files`: scan the configured directory for writable,
parseable files matching the extension whose sections include `sec`.
Unparseable files are skipped, not fatal. -/
def getConfigFiles (eng : TripleOYumConfig) (fs : Fs) (sec : String) :
    List String :=
  match eng.dir_path with
  | none => []
  | some d =>
    if sec.isEmpty then []
    else
      (fs.listdir d).filterMap (fun file =>
        if (match eng.file_extension with
            | some e => strEndsWith file e
            | none => true)
           && fs.accessW (pathJoin d file) then
          match fs.lookup (pathJoin d file) with
          | some st =>
              if st.parseOk && hasStr (sectionNames st.sections) sec then
                some (pathJoin d file)
              else none
          | none => none
        else none)

/-- `save_section_to_file` (Python 3 branch): update the section inside the
parsed document and rewrite the whole file. -/
def save_section_to_file (fs : Fs) (file_path : String) (config : IniDoc)
    (sec : String) (updates : OptMap) : Fs :=
  fs.write file_path ⟨updateConfigSection config sec updates, true, true⟩

/-- The per-file loop of `update_section`: each resolved file is re-read
(with the section required) and rewritten; a failure raises with whatever
was already written. -/
def updateFilesLoop (eng : TripleOYumConfig) (sec : String)
    (expanded : OptMap) : List String → Fs → Except (YumErr × Fs) Fs
  | [], fs => .ok fs
  | f :: rest, fs =>
    match readConfigFile eng fs f (some sec) with
    | .error e => .error (e, fs)
    | .ok (config, valid) =>
        updateFilesLoop eng sec expanded rest
          (save_section_to_file fs valid config sec expanded)

/-- `TripleOYumConfig.update_section`. -/
def TripleOYumConfig.update_section (eng : TripleOYumConfig)
    (ex : String → String) (fs : Fs) (sec : String) (set_dict : OptMap)
    (file_path : Option String) : Except (YumErr × Fs) Fs :=
  if checkValidOptions eng.valid_options set_dict then
    let files := match file_path with
      | some p => [p]
      | none => getConfigFiles eng fs sec
    if files.isEmpty then .error (.notFound, fs)
    else updateFilesLoop eng sec (expandMap ex set_dict) files fs
  else .error (.invalidOption, fs)

/-- `TripleOYumConfig.add_section`. -/
def TripleOYumConfig.add_section (eng : TripleOYumConfig)
    (ex : String → String) (fs : Fs) (sec : String) (add_dict : OptMap)
    (file_path : String) : Except (YumErr × Fs) Fs :=
  if checkValidOptions eng.valid_options add_dict then
    match readConfigFile eng fs file_path none with
    | .error e => .error (e, fs)
    | .ok (config, valid) =>
        if hasStr (sectionNames config) sec then .error (.invalidSection, fs)
        else
          .ok (save_section_to_file fs valid (config ++ [(sec, [])]) sec
            (expandMap ex add_dict))
  else .error (.invalidOption, fs)

/-- The per-section loop of `update_all_sections`: the shared in-memory
document accumulates every update and the file is rewritten each time. -/
def saveAllLoop (valid : String) (m : OptMap) :
    List String → IniDoc × Fs → IniDoc × Fs
  | [], acc => acc
  | s :: rest, (cfg, fs) =>
      let cfg' := updateConfigSection cfg s m
      saveAllLoop valid m rest (cfg', fs.write valid ⟨cfg', true, true⟩)

/-- `TripleOYumConfig.update_all_sections` (note: no value expansion in the
source). -/
def TripleOYumConfig.update_all_sections (eng : TripleOYumConfig) (fs : Fs)
    (set_dict : OptMap) (file_path : String) : Except (YumErr × Fs) Fs :=
  if checkValidOptions eng.valid_options set_dict then
    match readConfigFile eng fs file_path none with
    | .error e => .error (e, fs)
    | .ok (config, valid) =>
        .ok (saveAllLoop valid set_dict (sectionNames config) (config, fs)).2
  else .error (.invalidOption, fs)

/-- `get_config_from_url`: `none` stands for any failed fetch (non-200). -/
def get_config_from_url (urls : String → Option IniDoc) (url : String) :
    Except YumErr IniDoc :=
  match urls url with
  | none => .error .urlError
  | some cfg => .ok cfg

/-- `get_options_from_url`. -/
def get_options_from_url (urls : String → Option IniDoc) (url sec : String) :
    Except YumErr OptMap :=
  match get_config_from_url urls url with
  | .error e => .error e
  | .ok cfg =>
    match getSection cfg sec with
    | none => .error .invalidSection
    | some o => .ok o

/-! ### The repo-config variant (`TripleOYumRepoConfig`) -/

/-- The engine configuration produced by `TripleOYumRepoConfig.__init__`
(directory defaulted to the yum repo dir, fixed whitelist and extension). -/
def repoEngine (dir_path : Option String) : TripleOYumConfig :=
  ⟨some YUM_REPO_SUPPORTED_OPTIONS,
   some (dir_path.getD YUM_REPO_DIR),
   some YUM_REPO_FILE_EXTENSION⟩

/-- `TripleOYumRepoConfig.update_section`: merge URL-sourced options, the
caller's dict (skipped when falsy) and the `enabled` flag; delegate only
when the resulting dict is non-empty. -/
def TripleOYumRepoConfig.update_section (eng : TripleOYumConfig)
    (urls : String → Option IniDoc) (ex : String → String) (fs : Fs)
    (sec : String) (set_dict : Option OptMap) (file_path : Option String)
    (enabled : Option Bool) (from_url : Option String) :
    Except (YumErr × Fs) Fs :=
  match (match from_url with
         | some u => get_options_from_url urls u sec
         | none => .ok []) with
  | .error e => .error (e, fs)
  | .ok ud0 =>
    let ud1 := match set_dict with
      | some d => if d.isEmpty then ud0 else dictUpdate ud0 d
      | none => ud0
    let ud2 := match enabled with
      | some b => setOption ud1 "enabled" (if b then "1" else "0")
      | none => ud1
    if ud2.isEmpty then .ok fs
    else TripleOYumConfig.update_section eng ex fs sec ud2 file_path

/-- `TripleOYumRepoConfig.add_section`. -/
def TripleOYumRepoConfig.add_section (eng : TripleOYumConfig)
    (urls : String → Option IniDoc) (ex : String → String) (fs : Fs)
    (sec : String) (add_dict : OptMap) (file_path : String)
    (enabled : Option Bool) (from_url : Option String) :
    Except (YumErr × Fs) Fs :=
  match (match from_url with
         | some u => get_options_from_url urls u sec
         | none => .ok []) with
  | .error e => .error (e, fs)
  | .ok ud0 =>
    let ud1 := dictUpdate ud0 add_dict
    let ud2 := match enabled with
      | some b => setOption ud1 "enabled" (if b then "1" else "0")
      | none => ud1
    TripleOYumConfig.add_section eng ex fs sec ud2 file_path

/-- `TripleOYumRepoConfig.add_or_update_section`.  Note that
`new_set_dict.update(set_dict)` is executed unconditionally, so a `None`
`set_dict` raises `TypeError` (modelled by `.typeError`) before any file
access.  On `NotFound` with creation permitted, the file is created empty
and `add_section` is called; on `InvalidSection`, `add_section` is called
directly (passing a `None` file path there would raise `TypeError`). -/
def TripleOYumRepoConfig.add_or_update_section (eng : TripleOYumConfig)
    (urls : String → Option IniDoc) (ex : String → String) (fs : Fs)
    (sec : String) (set_dict : Option OptMap) (file_path : Option String)
    (enabled : Option Bool) (create_if_not_exists : Bool)
    (from_url : Option String) : Except (YumErr × Fs) Fs :=
  match (match from_url with
         | some u => get_options_from_url urls u sec
         | none => .ok []) with
  | .error e => .error (e, fs)
  | .ok ns0 =>
    match set_dict with
    | none => .error (.typeError, fs)
    | some d =>
      let ns1 := dictUpdate ns0 d
      let ns2 := if hasKey ns1 "name" then ns1 else ns1 ++ [("name", sec)]
      match TripleOYumRepoConfig.update_section eng urls ex fs sec (some ns2)
          file_path enabled none with
      | .ok fs' => .ok fs'
      | .error (.notFound, fs') =>
          if create_if_not_exists then
            match file_path with
            | none => .error (.notFound, fs')
            | some p =>
                TripleOYumRepoConfig.add_section eng urls ex
                  (fs'.write p emptyFile) sec ns2 p enabled none
          else .error (.notFound, fs')
      | .error (.invalidSection, fs') =>
          match file_path with
          | some p =>
              TripleOYumRepoConfig.add_section eng urls ex fs' sec ns2 p
                enabled none
          | none => .error (.typeError, fs')
      | .error e => .error e

/-! ### The global-config variant (`TripleOYumGlobalConfig`, plugins) -/

/-- A constructed `TripleOYumGlobalConfig` object. -/
structure GlobalConfig where
  eng : TripleOYumConfig
  conf_file_path : String
deriving DecidableEq, Repr

/-- `TripleOYumGlobalConfig.__init__` (plugins variant).  With an explicit
`file_path` it calls `validated_file_path` but drops the boolean result, so
construction succeeds regardless; with no path it auto-creates the default
`yum.conf` holding one empty `main` section. -/
def TripleOYumGlobalConfig.init (file_path : Option String) (fs : Fs) :
    Except YumErr (GlobalConfig × Fs) :=
  let conf := file_path.getD YUM_GLOBAL_CONFIG_FILE_PATH
  match file_path with
  | some p =>
      let _ := validated_file_path fs p
      .ok (⟨⟨none, none, none⟩, conf⟩, fs)
  | none =>
      if fs.isfile conf then .ok (⟨⟨none, none, none⟩, conf⟩, fs)
      else .ok (⟨⟨none, none, none⟩, conf⟩,
        fs.write conf ⟨[("main", [])], true, true⟩)

/-! ### The older engine (`tripleo-yum-config/tripleo_yum_config`) -/

/-- A constructed old-variant `TripleOYumConfig` object. -/
structure OldTripleOYumConfig where
  valid_options : Option (List String)
  config_file_path : Option String
  dir_path : Option String
  file_extension : Option String
deriving DecidableEq, Repr

/-- The old variant's `TripleOYumConfig.__init__`: an explicit file path
must name an existing (`NotFound`) and writable (`PermissionDenied`) file;
a directory path must exist. -/
def OldTripleOYumConfig.init (valid_options : Option (List String))
    (file_path dir_path file_extension : Option String) (fs : Fs) :
    Except YumErr OldTripleOYumConfig :=
  if file_path.isNone && dir_path.isNone then .error .notFound
  else
    match ((match file_path with
            | some p =>
                if !(fs.isfile p) then .error .notFound
                else if !(fs.accessW p) then .error .permissionDenied
                else .ok ()
            | none => .ok ()) : Except YumErr Unit) with
    | .error e => .error e
    | .ok _ =>
      match dir_path with
      | some d =>
          if fs.isdir d then
            .ok ⟨valid_options, file_path, dir_path, file_extension⟩
          else .error .notFound
      | none => .ok ⟨valid_options, file_path, dir_path, file_extension⟩

/-! ### The compose-repo generator (`TripleOYumComposeRepoConfig`) -/

/-- A constructed compose generator: the pinned compose id and URL, target
architecture, repo directory, and the manifest's
`variants → paths.repository` table (an arch → path-fragment dict per
variant; a variant without a `repository` entry has the empty dict). -/
structure ComposeRepoConfig where
  compose_id : String
  compose_url : String
  arch : String
  dir_path : String
  variants : List (String × List (String × String))
deriving DecidableEq, Repr

/-- The engine configuration the compose constructor passes to the base
class. -/
def ComposeRepoConfig.engine (c : ComposeRepoConfig) : TripleOYumConfig :=
  ⟨some YUM_REPO_SUPPORTED_OPTIONS, some c.dir_path,
   some YUM_REPO_FILE_EXTENSION⟩

/-- `self.compose_info['variants'].keys()`. -/
def variantNames (c : ComposeRepoConfig) : List String := c.variants.map (·.1)

/-- Arch → path fragment dict of one variant. -/
def variantPaths : List (String × List (String × String)) → String →
    Option (List (String × String))
  | [], _ => none
  | e :: t, v => if e.1 == v then some e.2 else variantPaths t v

/-- `_get_repo_name`. -/
def ComposeRepoConfig.repoName (c : ComposeRepoConfig) (v : String) :
    String := c.compose_id ++ " " ++ v

/-- `_get_repo_filename`. -/
def ComposeRepoConfig.repoFilename (c : ComposeRepoConfig) (v : String) :
    String := c.compose_id ++ "-" ++ v ++ ".repo"

/-- Strip leading and trailing `/` (Python `s.strip('/')`). -/
def stripSlash (s : String) : String :=
  String.mk (((s.data.dropWhile (· == '/')).reverse.dropWhile
    (· == '/')).reverse)

/-- `'/'.join(s.strip('/') for s in [a, b])`. -/
def urlJoin (a b : String) : String := stripSlash a ++ "/" ++ stripSlash b

/-- `_get_repo_base_url`: `none` when the variant has no (or an empty,
hence falsy) repository path for the configured architecture.  Callers
guarantee the variant exists in the manifest, so the missing-variant
`KeyError` is unreachable and also modelled as `none`. -/
def ComposeRepoConfig.getRepoBaseUrl (c : ComposeRepoConfig) (v : String) :
    Option String :=
  match variantPaths c.variants v with
  | none => none
  | some repoPaths =>
    match lookupOpt repoPaths c.arch with
    | none => none
    | some frag =>
        if frag.isEmpty then none else some (urlJoin c.compose_url frag)

/-- Compose `add_section`: create the file first when missing, then the
base `add_section`. -/
def ComposeRepoConfig.add_section (c : ComposeRepoConfig)
    (ex : String → String) (fs : Fs) (sec : String) (add_dict : OptMap)
    (file_path : String) : Except (YumErr × Fs) Fs :=
  let fs1 := if fs.isfile file_path then fs else fs.write file_path emptyFile
  TripleOYumConfig.add_section c.engine ex fs1 sec add_dict file_path

/-- Compose `update_section`: `set_dict or {}` plus the `enabled` flag;
no-op when the resulting dict is empty. -/
def ComposeRepoConfig.update_section (c : ComposeRepoConfig)
    (ex : String → String) (fs : Fs) (sec : String)
    (set_dict : Option OptMap) (enabled : Option Bool)
    (file_path : Option String) : Except (YumErr × Fs) Fs :=
  let ud1 := set_dict.getD []
  let ud2 := match enabled with
    | some b => setOption ud1 "enabled" (if b then "1" else "0")
    | none => ud1
  if ud2.isEmpty then .ok fs
  else TripleOYumConfig.update_section c.engine ex fs sec ud2 file_path

/-- The option map written for one variant. -/
def composeAddDict (c : ComposeRepoConfig) (v burl : String) : OptMap :=
  [("name", c.repoName v), ("baseurl", burl), ("enabled", "1"),
   ("gpgcheck", "0")]

/-- The per-variant loop of `enable_compose_repos`, threading the
filesystem and the `updated_repos` dict. -/
def enableLoop (c : ComposeRepoConfig) (ex : String → String) :
    List String → Fs → List (String × String) →
    Except (YumErr × Fs) (Fs × List (String × String))
  | [], fs, repos => .ok (fs, repos)
  | v :: rest, fs, repos =>
    match c.getRepoBaseUrl v with
    | none => enableLoop c ex rest fs repos
    | some burl =>
      let fp := pathJoin c.dir_path (c.repoFilename v)
      match c.add_section ex fs (strLower v) (composeAddDict c v burl) fp with
      | .ok fs' => enableLoop c ex rest fs' (setOption repos (strLower v) fp)
      | .error (.invalidSection, fs') =>
          match c.update_section ex fs' (strLower v)
              (some (composeAddDict c v burl)) none (some fp) with
          | .ok fs'' => enableLoop c ex rest fs'' (setOption repos (strLower v) fp)
          | .error e => .error e
      | .error e => .error e

/-- Inner loop of the `override_repos` pass: disable the section in every
other file that contains it. -/
def disableFilesLoop (c : ComposeRepoConfig) (ex : String → String)
    (v own : String) : List String → Fs → Except (YumErr × Fs) Fs
  | [], fs => .ok fs
  | f :: rest, fs =>
      if f == own then disableFilesLoop c ex v own rest fs
      else
        match c.update_section ex fs v none (some false) (some f) with
        | .ok fs' => disableFilesLoop c ex v own rest fs'
        | .error e => .error e

/-- Outer loop of the `override_repos` pass. -/
def overrideLoop (c : ComposeRepoConfig) (ex : String → String) :
    List (String × String) → Fs → Except (YumErr × Fs) Fs
  | [], fs => .ok fs
  | (v, own) :: rest, fs =>
      match disableFilesLoop c ex v own (getConfigFiles c.engine fs v) fs with
      | .ok fs' => overrideLoop c ex rest fs'
      | .error e => .error e

/-- `enable_compose_repos`. -/
def ComposeRepoConfig.enable_compose_repos (c : ComposeRepoConfig)
    (ex : String → String) (fs : Fs) (variants : Option (List String))
    (override_repos : Bool) : Except (YumErr × Fs) Fs :=
  match ((match variants with
          | some vs =>
              if vs.isEmpty then .ok (variantNames c)
              else if vs.all (fun v => hasStr (variantNames c) v) then .ok vs
              else .error YumErr.composeError
          | none => .ok (variantNames c)) : Except YumErr (List String)) with
  | .error e => .error (e, fs)
  | .ok vs =>
    match enableLoop c ex vs fs [] with
    | .error e => .error e
    | .ok (fs', repos) =>
        if override_repos then overrideLoop c ex repos fs' else .ok fs'

deriving instance DecidableEq for Except

/-! ### Lemmas about dict assignment -/

theorem hasKey_setOption_self (o : OptMap) (k v : String) :
    hasKey (setOption o k v) k = true := by
  induction o with
  | nil => simp [setOption, hasKey]
  | cons e t ih =>
      by_cases h : e.1 = k <;> simp [setOption, hasKey, h, ih]

theorem hasKey_setOption_of {o : OptMap} {k' : String} (k v : String)
    (h : hasKey o k' = true) : hasKey (setOption o k v) k' = true := by
  induction o with
  | nil => simp [hasKey] at h
  | cons e t ih =>
      simp only [hasKey, Bool.or_eq_true] at h
      by_cases he : e.1 = k
      · rw [setOption, if_pos (by simpa using he)]
        simp only [hasKey, Bool.or_eq_true]
        rcases h with h | h
        · exact Or.inl (he ▸ h)
        · exact Or.inr h
      · rw [setOption, if_neg (by simpa using he)]
        simp only [hasKey, Bool.or_eq_true]
        rcases h with h | h
        · exact Or.inl h
        · exact Or.inr (ih h)

theorem hasKey_setOption_ne {k' k : String} (o : OptMap) (v : String)
    (h : k' ≠ k) : hasKey (setOption o k v) k' = hasKey o k' := by
  induction o with
  | nil => simp [setOption, hasKey, Ne.symm h]
  | cons e t ih =>
      by_cases he : e.1 = k <;> simp [setOption, he, hasKey, ih, Ne.symm h]

theorem setOption_setOption_same (o : OptMap) (k v v' : String) :
    setOption (setOption o k v) k v' = setOption o k v' := by
  induction o with
  | nil => simp [setOption]
  | cons e t ih =>
      by_cases he : e.1 = k <;> simp [setOption, he, ih]

theorem setOption_comm {o : OptMap} {k k' : String} (v v' : String)
    (hk : hasKey o k = true) (hne : k' ≠ k) :
    setOption (setOption o k v) k' v' = setOption (setOption o k' v') k v := by
  induction o with
  | nil => simp [hasKey] at hk
  | cons e t ih =>
      by_cases he : e.1 = k
      · simp [setOption, he, Ne.symm hne, hne]
      · by_cases he' : e.1 = k'
        · simp [setOption, he, he', hne, Ne.symm hne]
        · simp only [hasKey, Bool.or_eq_true, beq_iff_eq] at hk
          rcases hk with hk | hk
          · exact absurd hk he
          · simp [setOption, he, he', ih hk]

theorem setOption_of_not_hasKey {o : OptMap} {k : String} (v : String)
    (h : hasKey o k = false) : setOption o k v = o ++ [(k, v)] := by
  induction o with
  | nil => simp [setOption]
  | cons e t ih =>
      simp only [hasKey, Bool.or_eq_false_iff] at h
      rw [setOption, if_neg (by simpa using h.1)]
      simp [ih h.2]

theorem hasKey_updateOptions_of {o : OptMap} {k : String} (m : OptMap)
    (h : hasKey o k = true) : hasKey (updateOptions o m) k = true := by
  induction m generalizing o with
  | nil => simpa [updateOptions] using h
  | cons e t ih =>
      simp only [updateOptions]
      exact ih (hasKey_setOption_of (optionxform e.1) e.2 h)

theorem updateOptions_setOption_mem {o : OptMap} {k : String} (v : String)
    {m : OptMap} (hk : hasKey o k = true)
    (hm : k ∈ m.map (fun e => optionxform e.1)) :
    updateOptions (setOption o k v) m = updateOptions o m := by
  induction m generalizing o with
  | nil => simp at hm
  | cons e t ih =>
      simp only [List.map_cons, List.mem_cons] at hm
      simp only [updateOptions]
      by_cases he : optionxform e.1 = k
      · rw [he, setOption_setOption_same]
      · rcases hm with hm | hm
        · exact absurd hm.symm he
        · rw [setOption_comm v e.2 hk he]
          exact ih (hasKey_setOption_of (optionxform e.1) e.2 hk) hm

theorem updateOptions_setOption_not_mem {o : OptMap} {k : String} (v : String)
    {m : OptMap} (hk : hasKey o k = true)
    (hm : k ∉ m.map (fun e => optionxform e.1)) :
    updateOptions (setOption o k v) m = setOption (updateOptions o m) k v := by
  induction m generalizing o with
  | nil => simp [updateOptions]
  | cons e t ih =>
      simp only [List.map_cons, List.mem_cons, not_or] at hm
      simp only [updateOptions]
      rw [setOption_comm v e.2 hk (fun hc => hm.1 hc.symm)]
      exact ih (hasKey_setOption_of (optionxform e.1) e.2 hk) hm.2

/-- Re-applying the same update dict changes nothing (the core of merge
idempotence). -/
theorem updateOptions_absorb (o : OptMap) (m : OptMap) :
    updateOptions (updateOptions o m) m = updateOptions o m := by
  induction m generalizing o with
  | nil => simp [updateOptions]
  | cons e t ih =>
      simp only [updateOptions]
      have hkeyR : hasKey (updateOptions (setOption o (optionxform e.1) e.2) t)
          (optionxform e.1) = true :=
        hasKey_updateOptions_of t
          (hasKey_setOption_self o (optionxform e.1) e.2)
      by_cases hmem : optionxform e.1 ∈ t.map (fun e => optionxform e.1)
      · rw [updateOptions_setOption_mem e.2 hkeyR hmem]
        exact ih (setOption o (optionxform e.1) e.2)
      · have h1 : updateOptions (setOption o (optionxform e.1) e.2) t =
            setOption (updateOptions (setOption o (optionxform e.1) e.2) t)
              (optionxform e.1) e.2 := by
          conv_lhs =>
            rw [← setOption_setOption_same o (optionxform e.1) e.2 e.2]
          exact updateOptions_setOption_not_mem e.2
            (hasKey_setOption_self o (optionxform e.1) e.2) hmem
        rw [← h1]
        exact ih (setOption o (optionxform e.1) e.2)

theorem lookupOpt_setOption_self (o : OptMap) (k v : String) :
    lookupOpt (setOption o k v) k = some v := by
  induction o with
  | nil => simp [setOption, lookupOpt]
  | cons e t ih =>
      by_cases he : e.1 = k <;> simp [setOption, he, lookupOpt, ih]

theorem lookupOpt_setOption_ne {k' k : String} (o : OptMap) (v : String)
    (h : k' ≠ k) : lookupOpt (setOption o k v) k' = lookupOpt o k' := by
  induction o with
  | nil => simp [setOption, lookupOpt, Ne.symm h]
  | cons e t ih =>
      by_cases he : e.1 = k <;>
        simp [setOption, he, lookupOpt, ih, Ne.symm h]

theorem lookupOpt_updateOptions_not_mem {o : OptMap} {k : String}
    {m : OptMap} (hm : k ∉ m.map (fun e => optionxform e.1)) :
    lookupOpt (updateOptions o m) k = lookupOpt o k := by
  induction m generalizing o with
  | nil => simp [updateOptions]
  | cons e t ih =>
      simp only [List.map_cons, List.mem_cons, not_or] at hm
      simp only [updateOptions]
      rw [ih hm.2, lookupOpt_setOption_ne o e.2 hm.1]

theorem lookupOpt_updateOptions_mem {o : OptMap} {k v : String}
    {m : OptMap} (hnd : (m.map (fun e => optionxform e.1)).Nodup)
    (hmem : (k, v) ∈ m) :
    lookupOpt (updateOptions o m) (optionxform k) = some v := by
  induction m generalizing o with
  | nil => simp at hmem
  | cons e t ih =>
      simp only [List.map_cons, List.nodup_cons] at hnd
      rcases List.mem_cons.mp hmem with hme | hme
      · have hk1 : e.1 = k := (congrArg Prod.fst hme).symm
        have hv1 : e.2 = v := (congrArg Prod.snd hme).symm
        have hnotm : optionxform k ∉ t.map (fun e => optionxform e.1) := by
          rw [← hk1]; exact hnd.1
        simp only [updateOptions]
        rw [lookupOpt_updateOptions_not_mem hnotm, ← hk1,
          lookupOpt_setOption_self, hv1]
      · exact ih hnd.2 hme

theorem hasKey_append (o1 o2 : OptMap) (k : String) :
    hasKey (o1 ++ o2) k = (hasKey o1 k || hasKey o2 k) := by
  induction o1 with
  | nil => simp [hasKey]
  | cons e t ih => simp [hasKey, ih, Bool.or_assoc]

theorem updateOptions_fresh {m : OptMap} : ∀ acc : OptMap,
    (m.map (fun e => optionxform e.1)).Nodup →
    (∀ x ∈ m.map (fun e => optionxform e.1), hasKey acc x = false) →
    updateOptions acc m = acc ++ m.map (fun e => (optionxform e.1, e.2)) := by
  induction m with
  | nil => intro acc _ _; simp [updateOptions]
  | cons e t ih =>
      intro acc hnd hfresh
      simp only [List.map_cons, List.nodup_cons] at hnd
      simp only [updateOptions]
      rw [setOption_of_not_hasKey e.2 (hfresh (optionxform e.1)
        (by simp only [List.map_cons]; exact List.mem_cons_self _ _))]
      rw [ih (acc ++ [(optionxform e.1, e.2)]) hnd.2 ?_]
      · simp
      · intro x hx
        rw [hasKey_append]
        have h1 : hasKey acc x = false := hfresh x
          (by simp only [List.map_cons]; exact List.mem_cons_of_mem _ hx)
        have h2 : ¬optionxform e.1 = x := by
          intro hc
          have hx' : x ∈ t.map (fun e => optionxform e.1) := hx
          rw [← hc] at hx'
          exact hnd.1 hx'
        simp [h1, hasKey, h2]

theorem dictUpdate_fresh {m : OptMap} : ∀ acc : OptMap,
    (m.map (·.1)).Nodup →
    (∀ x ∈ m.map (·.1), hasKey acc x = false) →
    dictUpdate acc m = acc ++ m := by
  induction m with
  | nil => intro acc _ _; simp [dictUpdate]
  | cons e t ih =>
      intro acc hnd hfresh
      simp only [List.map_cons, List.nodup_cons] at hnd
      simp only [dictUpdate]
      rw [setOption_of_not_hasKey e.2 (hfresh e.1
        (by simp only [List.map_cons]; exact List.mem_cons_self _ _))]
      rw [ih (acc ++ [(e.1, e.2)]) hnd.2 ?_]
      · simp
      · intro x hx
        rw [hasKey_append]
        have h1 : hasKey acc x = false := hfresh x
          (by simp only [List.map_cons]; exact List.mem_cons_of_mem _ hx)
        have h2 : ¬e.1 = x := by
          intro hc
          have hx' : x ∈ t.map (·.1) := hx
          rw [← hc] at hx'
          exact hnd.1 hx'
        simp [h1, hasKey, h2]

/-- `dict.update` into an empty dict keeps the items as given when the raw
keys repeat nowhere (always true of a Python dict's items). -/
theorem dictUpdate_nil {m : OptMap} (hnd : (m.map (·.1)).Nodup) :
    dictUpdate [] m = m := by
  simpa using dictUpdate_fresh [] hnd (fun x _ => rfl)

/-! ### Lemmas about parsed documents -/

theorem hasStr_iff {l : List String} {s : String} :
    hasStr l s = true ↔ s ∈ l := by
  induction l with
  | nil => simp [hasStr]
  | cons x t ih =>
      simp only [hasStr, Bool.or_eq_true, beq_iff_eq, ih, List.mem_cons]
      constructor
      · rintro (h | h)
        · exact Or.inl h.symm
        · exact Or.inr h
      · rintro (h | h)
        · exact Or.inl h.symm
        · exact Or.inr h

theorem sectionNames_updateConfigSection (ss : IniDoc) (s : String)
    (m : OptMap) :
    sectionNames (updateConfigSection ss s m) = sectionNames ss := by
  induction ss with
  | nil => rfl
  | cons e t ih =>
      by_cases he : e.1 = s
      · simpa [updateConfigSection, sectionNames, he] using ih
      · simpa [updateConfigSection, sectionNames, he] using ih

theorem getSection_updateConfigSection_self {ss : IniDoc} {s : String}
    {o : OptMap} (m : OptMap) (h : getSection ss s = some o) :
    getSection (updateConfigSection ss s m) s = some (updateOptions o m) := by
  induction ss with
  | nil => simp [getSection] at h
  | cons e t ih =>
      by_cases he : e.1 = s
      · simp only [getSection, he, beq_self_eq_true, if_true,
          Option.some_inj] at h
        simp [updateConfigSection, getSection, he, h]
      · simp only [getSection, beq_iff_eq, he, if_false] at h
        simpa [updateConfigSection, getSection, he] using ih h

theorem getSection_updateConfigSection_ne {s' s : String} (ss : IniDoc)
    (m : OptMap) (h : s' ≠ s) :
    getSection (updateConfigSection ss s m) s' = getSection ss s' := by
  induction ss with
  | nil => rfl
  | cons e t ih =>
      by_cases he : e.1 = s
      · simpa [updateConfigSection, getSection, he, Ne.symm h] using ih
      · by_cases he' : e.1 = s'
        · simp [updateConfigSection, getSection, he, he', h]
        · simpa [updateConfigSection, getSection, he, he'] using ih

theorem getSection_some_hasStr {ss : IniDoc} {s : String} {o : OptMap}
    (h : getSection ss s = some o) :
    hasStr (sectionNames ss) s = true := by
  induction ss with
  | nil => simp [getSection] at h
  | cons e t ih =>
      by_cases he : e.1 = s
      · simp [sectionNames, hasStr, he]
      · simp only [getSection, beq_iff_eq, he, if_false] at h
        simp only [sectionNames, List.map_cons, hasStr, Bool.or_eq_true]
        exact Or.inr (by simpa [sectionNames] using ih h)

theorem updateConfigSection_absorb (ss : IniDoc) (s : String) (m : OptMap) :
    updateConfigSection (updateConfigSection ss s m) s m =
      updateConfigSection ss s m := by
  induction ss with
  | nil => rfl
  | cons e t ih =>
      by_cases he : e.1 = s
      · simpa [updateConfigSection, he, updateOptions_absorb] using ih
      · simpa [updateConfigSection, he] using ih

/-! ### Lemmas about the filesystem -/

theorem Fs.lookup_write_self (fs : Fs) (p : String) (st : FileState) :
    (fs.write p st).lookup p = some st := by
  show lookupFile (writeFileList fs.files p st) p = some st
  induction fs.files with
  | nil => simp [writeFileList, lookupFile]
  | cons e t ih =>
      by_cases he : e.1 = p <;>
        simp [writeFileList, he, lookupFile, ih]

theorem Fs.lookup_write_ne {q p : String} (fs : Fs) (st : FileState)
    (h : q ≠ p) : (fs.write p st).lookup q = fs.lookup q := by
  show lookupFile (writeFileList fs.files p st) q = lookupFile fs.files q
  induction fs.files with
  | nil => simp [writeFileList, lookupFile, Ne.symm h]
  | cons e t ih =>
      by_cases he : e.1 = p
      · simp [writeFileList, he, lookupFile, Ne.symm h, h]
      · by_cases he' : e.1 = q
        · simp [writeFileList, he, lookupFile, he', h]
        · simp [writeFileList, he, lookupFile, he', ih]

theorem Fs.write_write (fs : Fs) (p : String) (st1 st2 : FileState) :
    (fs.write p st1).write p st2 = fs.write p st2 := by
  show Fs.mk (writeFileList (writeFileList fs.files p st1) p st2) fs.dirs =
    Fs.mk (writeFileList fs.files p st2) fs.dirs
  congr 1
  induction fs.files with
  | nil => simp [writeFileList]
  | cons e t ih =>
      by_cases he : e.1 = p <;> simp [writeFileList, he, ih]

theorem pathJoin_ne (d f : String) : pathJoin d f ≠ f := by
  intro hc
  have hlen := congrArg String.length hc
  have h1 : ("/" : String).length = 1 := rfl
  simp only [pathJoin, String.length_append, h1] at hlen
  omega

theorem validated_of_lookup {fs : Fs} {p : String} {st : FileState}
    (h : fs.lookup p = some st) (hw : st.writable = true) :
    validated_file_path fs p = true := by
  simp [validated_file_path, Fs.isfile, Fs.accessW, h, hw]

theorem validated_write_ne {p q : String} (fs : Fs) (st : FileState)
    (h : p ≠ q) :
    validated_file_path (fs.write q st) p = validated_file_path fs p := by
  simp [validated_file_path, Fs.isfile, Fs.accessW, Fs.lookup_write_ne fs st h]

theorem validated_write_self {st : FileState} (fs : Fs) (p : String)
    (hw : st.writable = true) :
    validated_file_path (fs.write p st) p = true := by
  simp [validated_file_path, Fs.isfile, Fs.accessW, Fs.lookup_write_self,
    hw]

/-- Forward evaluation of `_read_config_file` when the given path itself
is a valid file (no section requirement). -/
theorem readConfigFile_direct {fs : Fs} {p : String} {st : FileState}
    (eng : TripleOYumConfig) (hlk : fs.lookup p = some st)
    (hw : st.writable = true) (hp : st.parseOk = true) :
    readConfigFile eng fs p none = .ok (st.sections, p) := by
  have hv : validated_file_path fs p = true := validated_of_lookup hlk hw
  cases hd : eng.dir_path <;>
    simp [readConfigFile, fileCandidates, hd, findValid, hv, hlk, hp]

/-- Forward evaluation of `_read_config_file` when the given path itself
is a valid file containing the required section. -/
theorem readConfigFile_direct_sec {fs : Fs} {p : String} {st : FileState}
    {s : String} (eng : TripleOYumConfig) (hlk : fs.lookup p = some st)
    (hw : st.writable = true) (hp : st.parseOk = true)
    (hs : hasStr (sectionNames st.sections) s = true) :
    readConfigFile eng fs p (some s) = .ok (st.sections, p) := by
  have hv : validated_file_path fs p = true := validated_of_lookup hlk hw
  cases hd : eng.dir_path <;>
    simp [readConfigFile, fileCandidates, hd, findValid, hv, hlk, hp, hs]

/-- Forward evaluation of `update_section` with an explicit path that is
itself a valid file containing the section. -/
theorem update_section_direct {eng : TripleOYumConfig} {ex : String → String}
    {fs : Fs} {sec : String} {m : OptMap} {p : String} {st : FileState}
    (hvo : checkValidOptions eng.valid_options m = true)
    (hlk : fs.lookup p = some st) (hw : st.writable = true)
    (hp : st.parseOk = true)
    (hs : hasStr (sectionNames st.sections) sec = true) :
    TripleOYumConfig.update_section eng ex fs sec m (some p) =
      .ok (fs.write p
        ⟨updateConfigSection st.sections sec (expandMap ex m), true, true⟩) := by
  simp [TripleOYumConfig.update_section, hvo, updateFilesLoop,
    readConfigFile_direct_sec eng hlk hw hp hs, save_section_to_file]

/-- Forward evaluation of `add_section` when the target file is a valid
file not containing the section. -/
theorem add_section_direct {eng : TripleOYumConfig} {ex : String → String}
    {fs : Fs} {sec : String} {m : OptMap} {p : String} {st : FileState}
    (hvo : checkValidOptions eng.valid_options m = true)
    (hlk : fs.lookup p = some st) (hw : st.writable = true)
    (hp : st.parseOk = true)
    (hs : hasStr (sectionNames st.sections) sec = false) :
    TripleOYumConfig.add_section eng ex fs sec m p =
      .ok (fs.write p
        ⟨updateConfigSection (st.sections ++ [(sec, [])]) sec
          (expandMap ex m), true, true⟩) := by
  simp [TripleOYumConfig.add_section, hvo,
    readConfigFile_direct eng hlk hw hp, hs, save_section_to_file]

theorem findValid_some_validated {fs : Fs} : ∀ {l : List String} {v : String},
    findValid fs l = some v → validated_file_path fs v = true := by
  intro l
  induction l with
  | nil => intro v hf; cases hf
  | cons b l2 ih =>
      intro v hf
      by_cases hb : validated_file_path fs b = true
      · rw [findValid, if_pos hb] at hf
        injection hf with hf
        subst hf
        exact hb
      · rw [findValid, if_neg hb] at hf
        exact ih hf

/-- Inversion of a successful `_read_config_file` with a required
section. -/
theorem readConfigFile_ok_inv_sec {eng : TripleOYumConfig} {fs : Fs}
    {p s : String} {doc : IniDoc} {valid : String}
    (h : readConfigFile eng fs p (some s) = .ok (doc, valid)) :
    ∃ st, fs.lookup valid = some st ∧ st.writable = true ∧
      st.parseOk = true ∧ doc = st.sections ∧
      hasStr (sectionNames st.sections) s = true ∧
      findValid fs (fileCandidates eng p) = some valid := by
  unfold readConfigFile at h
  split at h
  · cases h
  · rename_i v hf
    split at h
    · cases h
    · rename_i st hlk
      split at h
      · rename_i hp
        split at h
        · rename_i d hsd
          injection hsd with hsd
          subst hsd
          split at h
          · rename_i hs
            injection h with h
            injection h with h1 h2
            subst h2
            have hv : validated_file_path fs v = true :=
              findValid_some_validated hf
            have hw : st.writable = true := by
              simp only [validated_file_path, Fs.isfile, Fs.accessW, hlk,
                Option.isSome_some, Bool.true_and] at hv
              exact hv
            exact ⟨st, hlk, hw, hp, h1.symm, hs, hf⟩
          · cases h
        · rename_i heq
          exact Option.noConfusion heq
      · cases h

/-- Rewriting the resolved file (with a writable result) does not change
which candidate path `_read_config_file` resolves. -/
theorem findValid_write_self {fs : Fs} {valid : String} {st' : FileState}
    (hw' : st'.writable = true) : ∀ {l : List String},
    findValid fs l = some valid →
    findValid (fs.write valid st') l = some valid := by
  intro l
  induction l with
  | nil => intro hf; cases hf
  | cons b t ih =>
      intro hf
      by_cases hb : validated_file_path fs b = true
      · rw [findValid, if_pos hb] at hf
        injection hf with hf
        subst hf
        rw [findValid, if_pos (validated_write_self fs b hw')]
      · rw [findValid, if_neg hb] at hf
        by_cases hbv : b = valid
        · exfalso
          have hv : validated_file_path fs valid = true :=
            findValid_some_validated hf
          rw [← hbv] at hv
          exact hb hv
        · rw [findValid, if_neg ?_]
          · exact ih hf
          · rw [validated_write_ne fs st' hbv]
            exact hb

/-! ### Claim theorems -/

/-- C5: for every section, option map and explicitly targeted file,
running `update_section` a second time with the same option map returns the
filesystem of the first run unchanged: the merge is idempotent, so the file
is byte-identical after the second call. -/
theorem updateSection_idempotent {eng : TripleOYumConfig}
    {ex : String → String} {fs fs1 : Fs} {sec : String} {m : OptMap}
    {p : String}
    (h : TripleOYumConfig.update_section eng ex fs sec m (some p) = .ok fs1) :
    TripleOYumConfig.update_section eng ex fs1 sec m (some p) = .ok fs1 := by
  by_cases hvo : checkValidOptions eng.valid_options m = true
  · simp only [TripleOYumConfig.update_section, hvo, if_true,
      List.isEmpty_cons, Bool.false_eq_true, if_false] at h ⊢
    rw [updateFilesLoop] at h
    split at h
    · cases h
    · rename_i config valid hr
      rw [updateFilesLoop] at h
      injection h with h
      obtain ⟨st, hlk, hw, hp, hdoc, hs, hf⟩ := readConfigFile_ok_inv_sec hr
      subst hdoc
      have hfs1 : fs1 = fs.write valid
          ⟨updateConfigSection st.sections sec (expandMap ex m), true,
            true⟩ := by
        rw [← h]; rfl
      have hr2 : readConfigFile eng fs1 p (some sec) =
          .ok (updateConfigSection st.sections sec (expandMap ex m),
            valid) := by
        unfold readConfigFile
        rw [hfs1, findValid_write_self rfl hf]
        simp [Fs.lookup_write_self, sectionNames_updateConfigSection, hs]
      have habs : save_section_to_file fs1 valid
          (updateConfigSection st.sections sec (expandMap ex m)) sec
          (expandMap ex m) = fs1 := by
        rw [hfs1]
        show (fs.write valid _).write valid _ = _
        rw [Fs.write_write, updateConfigSection_absorb]
      rw [updateFilesLoop, hr2]
      simp only [updateFilesLoop, habs]
  · simp only [TripleOYumConfig.update_section, hvo, if_false] at h
    cases h

/-- C5 witness: a concrete run on `/d/a.repo`; the first call rewrites the
file and the second call (via `updateSection_idempotent`) returns it
byte-identical. -/
theorem updateSection_idempotent_witness :
    TripleOYumConfig.update_section (repoEngine (some "/d")) (fun s => s)
      (Fs.mk [("/d/a.repo",
        ⟨[("foo", [("baseurl", "old")])], true, true⟩)] ["/d"])
      "foo" [("baseurl", "new")] (some "/d/a.repo") =
      .ok (Fs.mk [("/d/a.repo",
        ⟨[("foo", [("baseurl", "new")])], true, true⟩)] ["/d"])
    ∧ TripleOYumConfig.update_section (repoEngine (some "/d")) (fun s => s)
      (Fs.mk [("/d/a.repo",
        ⟨[("foo", [("baseurl", "new")])], true, true⟩)] ["/d"])
      "foo" [("baseurl", "new")] (some "/d/a.repo") =
      .ok (Fs.mk [("/d/a.repo",
        ⟨[("foo", [("baseurl", "new")])], true, true⟩)] ["/d"]) :=
  ⟨by decide,
   @updateSection_idempotent (repoEngine (some "/d")) (fun s => s)
     (Fs.mk [("/d/a.repo",
       ⟨[("foo", [("baseurl", "old")])], true, true⟩)] ["/d"])
     (Fs.mk [("/d/a.repo",
       ⟨[("foo", [("baseurl", "new")])], true, true⟩)] ["/d"])
     "foo" [("baseurl", "new")] "/d/a.repo" (by decide)⟩

/-- C1: whenever the engine has a non-empty whitelist and the option map
contains at least one key outside it, each of the three mutating
operations fails with `InvalidOption` and the filesystem carried by the
error is the input filesystem unchanged (validation precedes any write). -/
theorem invalidOption_blocks_mutations {eng : TripleOYumConfig}
    {wl : List String} {m : OptMap} (ex : String → String) (fs : Fs)
    (sec : String) (fp : Option String) (p : String)
    (hwl : eng.valid_options = some wl) (hne : wl ≠ [])
    (hbad : m.any (fun e => !(hasStr wl e.1)) = true) :
    TripleOYumConfig.update_section eng ex fs sec m fp =
      .error (.invalidOption, fs)
    ∧ TripleOYumConfig.add_section eng ex fs sec m p =
      .error (.invalidOption, fs)
    ∧ TripleOYumConfig.update_all_sections eng fs m p =
      .error (.invalidOption, fs) := by
  have hchk : checkValidOptions eng.valid_options m = false := by
    rw [hwl]
    simp only [checkValidOptions]
    have h1 : wl.isEmpty = false := by
      cases wl with
      | nil => exact absurd rfl hne
      | cons a t => rfl
    rw [h1, Bool.false_or]
    obtain ⟨e, hmem, hbe⟩ := List.any_eq_true.mp hbad
    simp only [Bool.not_eq_true'] at hbe
    apply Bool.eq_false_iff.mpr
    intro hall
    have := List.all_eq_true.mp hall e hmem
    rw [this] at hbe
    cases hbe
  refine ⟨?_, ?_, ?_⟩
  · simp [TripleOYumConfig.update_section, hchk]
  · simp [TripleOYumConfig.add_section, hchk]
  · simp [TripleOYumConfig.update_all_sections, hchk]

/-- C1 witness: concrete engine with whitelist `["baseurl"]` and option
map containing the invalid key `bogus`. -/
theorem invalidOption_blocks_mutations_witness :
    TripleOYumConfig.update_section ⟨some ["baseurl"], some "/d", some ".repo"⟩
      (fun s => s) (Fs.mk [] ["/d"]) "foo" [("bogus", "x")] none =
      .error (.invalidOption, Fs.mk [] ["/d"])
    ∧ TripleOYumConfig.add_section ⟨some ["baseurl"], some "/d", some ".repo"⟩
      (fun s => s) (Fs.mk [] ["/d"]) "foo" [("bogus", "x")] "/d/a.repo" =
      .error (.invalidOption, Fs.mk [] ["/d"])
    ∧ TripleOYumConfig.update_all_sections
      ⟨some ["baseurl"], some "/d", some ".repo"⟩ (Fs.mk [] ["/d"])
      [("bogus", "x")] "/d/a.repo" =
      .error (.invalidOption, Fs.mk [] ["/d"]) :=
  invalidOption_blocks_mutations (fun s => s) (Fs.mk [] ["/d"]) "foo" none
    "/d/a.repo" rfl (by decide) (by decide)

/-- C9: in both the repo-config and the compose variants, `update_section`
with an effectively empty option map (`set_dict` empty or `None`,
`enabled=None`, no `from_url`) returns the filesystem unchanged with no
error, even when no file contains the section. -/
theorem updateSection_empty_noop (eng : TripleOYumConfig)
    (urls : String → Option IniDoc) (ex : String → String) (fs : Fs)
    (sec : String) (fp : Option String) (c : ComposeRepoConfig) :
    TripleOYumRepoConfig.update_section eng urls ex fs sec none fp none none
      = .ok fs
    ∧ TripleOYumRepoConfig.update_section eng urls ex fs sec (some []) fp
        none none = .ok fs
    ∧ ComposeRepoConfig.update_section c ex fs sec none none fp = .ok fs
    ∧ ComposeRepoConfig.update_section c ex fs sec (some []) none fp =
        .ok fs :=
  ⟨rfl, rfl, rfl, rfl⟩

/-- C10: `add_or_update_section` with `set_dict` left at its `None`
default always raises `TypeError` (from `dict.update(None)`) before any
file is read, created or written: the error carries the input filesystem
unchanged. -/
theorem addOrUpdateSection_none_typeError (eng : TripleOYumConfig)
    (urls : String → Option IniDoc) (ex : String → String) (fs : Fs)
    (sec : String) (fp : Option String) (enabled : Option Bool)
    (create : Bool) :
    TripleOYumRepoConfig.add_or_update_section eng urls ex fs sec none fp
      enabled create none = .error (.typeError, fs) := rfl

/-- C2: the plugins-variant `TripleOYumGlobalConfig` constructor, given an
explicit path to a file that does not exist, succeeds anyway (it calls
`validated_file_path` but discards the result), leaving the filesystem
untouched; the older `tripleo-yum-config` variant's base constructor
performs the validation the spec describes, failing with `NotFound` for a
missing file and `PermissionDenied` for a non-writable one, and succeeding
on an existing writable file. -/
theorem globalConfig_init_skips_validation :
    TripleOYumGlobalConfig.init (some "/x/yum.conf") (Fs.mk [] []) =
      .ok (⟨⟨none, none, none⟩, "/x/yum.conf"⟩, Fs.mk [] [])
    ∧ OldTripleOYumConfig.init none (some "/x/yum.conf") none none
        (Fs.mk [] []) = .error .notFound
    ∧ OldTripleOYumConfig.init none (some "/x/yum.conf") none none
        (Fs.mk [("/x/yum.conf", ⟨[("main", [])], false, true⟩)] []) =
        .error .permissionDenied
    ∧ OldTripleOYumConfig.init none (some "/x/yum.conf") none none
        (Fs.mk [("/x/yum.conf", ⟨[("main", [])], true, true⟩)] []) =
        .ok ⟨none, some "/x/yum.conf", none, none⟩ := by
  refine ⟨by decide, by decide, by decide, by decide⟩

theorem expandMap_xform_keys (ex : String → String) (m : OptMap) :
    (expandMap ex m).map (fun e => optionxform e.1) =
      m.map (fun e => optionxform e.1) := by
  rw [expandMap, List.map_map]
  rfl

/-- C3: for every file whose parsed content contains the target section,
`update_section` merges the option map into that section — each supplied
key (lowercased) ends up bound to its (expanded) supplied value,
keys not supplied keep their previous values — and rewrites that file in
place, leaving every other section of the file, every other file and the
directory set unchanged. -/
theorem updateSection_merges {eng : TripleOYumConfig} {ex : String → String}
    {fs : Fs} {sec : String} {m : OptMap} {p : String} {st : FileState}
    {o : OptMap}
    (hvo : checkValidOptions eng.valid_options m = true)
    (hlk : fs.lookup p = some st) (hw : st.writable = true)
    (hp : st.parseOk = true) (hsec : getSection st.sections sec = some o)
    (hnd : (m.map (fun e => optionxform e.1)).Nodup) :
    ∃ fs' st',
      TripleOYumConfig.update_section eng ex fs sec m (some p) = .ok fs'
      ∧ fs'.lookup p = some st'
      ∧ getSection st'.sections sec =
          some (updateOptions o (expandMap ex m))
      ∧ (∀ k v, (k, v) ∈ m →
          lookupOpt (updateOptions o (expandMap ex m)) (optionxform k) =
            some (ex v))
      ∧ (∀ k, k ∉ m.map (fun e => optionxform e.1) →
          lookupOpt (updateOptions o (expandMap ex m)) k = lookupOpt o k)
      ∧ (∀ s', s' ≠ sec →
          getSection st'.sections s' = getSection st.sections s')
      ∧ sectionNames st'.sections = sectionNames st.sections
      ∧ (∀ q, q ≠ p → fs'.lookup q = fs.lookup q)
      ∧ fs'.dirs = fs.dirs := by
  have hs := getSection_some_hasStr hsec
  refine ⟨_, _, update_section_direct hvo hlk hw hp hs,
    Fs.lookup_write_self _ _ _, ?_, ?_, ?_, ?_, ?_, ?_, rfl⟩
  · exact getSection_updateConfigSection_self _ hsec
  · intro k v hm
    have hnd2 : ((expandMap ex m).map (fun e => optionxform e.1)).Nodup := by
      rw [expandMap_xform_keys]; exact hnd
    have hm2 : (k, ex v) ∈ expandMap ex m :=
      List.mem_map_of_mem (fun e => (e.1, ex e.2)) hm
    exact lookupOpt_updateOptions_mem hnd2 hm2
  · intro k hk
    apply lookupOpt_updateOptions_not_mem
    rw [expandMap_xform_keys]
    exact hk
  · intro s' hs'
    exact getSection_updateConfigSection_ne _ _ hs'
  · exact sectionNames_updateConfigSection _ _ _
  · intro q hq
    exact Fs.lookup_write_ne fs _ hq

/-- C3 witness: scenario B — `/d/a.repo` holds `[foo] baseurl=old`; the
map `{baseurl: new, enabled: 1}` (the repo variant's translation of
`{"baseurl": "new", "enabled": True}`) is merged, giving
`baseurl=new, enabled=1`. -/
theorem updateSection_merges_witness :
    ∃ fs' st',
      TripleOYumConfig.update_section (repoEngine (some "/d")) (fun s => s)
        (Fs.mk [("/d/a.repo",
          ⟨[("foo", [("baseurl", "old")])], true, true⟩)] ["/d"])
        "foo" [("baseurl", "new"), ("enabled", "1")] (some "/d/a.repo") =
        .ok fs'
      ∧ fs'.lookup "/d/a.repo" = some st'
      ∧ getSection st'.sections "foo" =
          some (updateOptions [("baseurl", "old")]
            (expandMap (fun s => s) [("baseurl", "new"), ("enabled", "1")]))
      ∧ (∀ k v, (k, v) ∈ [("baseurl", "new"), ("enabled", "1")] →
          lookupOpt (updateOptions [("baseurl", "old")]
            (expandMap (fun s => s)
              [("baseurl", "new"), ("enabled", "1")])) (optionxform k) =
            some ((fun s => s) v))
      ∧ (∀ k, k ∉ ([("baseurl", "new"), ("enabled", "1")] : OptMap).map
            (fun e => optionxform e.1) →
          lookupOpt (updateOptions [("baseurl", "old")]
            (expandMap (fun s => s)
              [("baseurl", "new"), ("enabled", "1")])) k =
            lookupOpt [("baseurl", "old")] k)
      ∧ (∀ s', s' ≠ "foo" →
          getSection st'.sections s' =
            getSection [("foo", [("baseurl", "old")])] s')
      ∧ sectionNames st'.sections =
          sectionNames [("foo", [("baseurl", "old")])]
      ∧ (∀ q, q ≠ "/d/a.repo" →
          fs'.lookup q =
            (Fs.mk [("/d/a.repo",
              ⟨[("foo", [("baseurl", "old")])], true, true⟩)]
              ["/d"]).lookup q)
      ∧ fs'.dirs = ["/d"] :=
  @updateSection_merges (repoEngine (some "/d")) (fun s => s)
    (Fs.mk [("/d/a.repo",
      ⟨[("foo", [("baseurl", "old")])], true, true⟩)] ["/d"])
    "foo" [("baseurl", "new"), ("enabled", "1")] "/d/a.repo"
    ⟨[("foo", [("baseurl", "old")])], true, true⟩ [("baseurl", "old")]
    (by decide) (by decide) rfl rfl (by decide) (by decide)

/-- C4 counterexample: with the whitelist `["baseurl"]`, a non-empty
option map holding the non-whitelisted key `bogus`, and a file whose
`foo` section exists, `add_section` raises `InvalidOption` — not
`InvalidSection` — so "always raises InvalidSection" is false as stated;
the analogous call refutes the `NotFound` half. -/
theorem addSection_invalidOption_first :
    TripleOYumConfig.add_section ⟨some ["baseurl"], some "/d", some ".repo"⟩
      (fun s => s)
      (Fs.mk [("/d/a.repo", ⟨[("foo", [("baseurl", "old")])], true, true⟩)]
        ["/d"])
      "foo" [("bogus", "x")] "/d/a.repo" =
      .error (.invalidOption,
        Fs.mk [("/d/a.repo", ⟨[("foo", [("baseurl", "old")])], true, true⟩)]
          ["/d"])
    ∧ TripleOYumConfig.update_section
      ⟨some ["baseurl"], some "/d", some ".repo"⟩ (fun s => s)
      (Fs.mk [] ["/d"]) "foo" [("bogus", "x")] none =
      .error (.invalidOption, Fs.mk [] ["/d"])
    ∧ YumErr.invalidOption ≠ YumErr.invalidSection
    ∧ YumErr.invalidOption ≠ YumErr.notFound := by
  refine ⟨by decide, by decide, by decide, by decide⟩

/-- C4 (amended): provided every key of the option map passes the
configured whitelist, `add_section` on a file that already contains the
section always raises `InvalidSection`, and `update_section` without an
explicit path, when no file of the directory scan contains the section,
always raises `NotFound`; both leave the filesystem unchanged. -/
theorem add_update_disjoint {eng : TripleOYumConfig} {ex : String → String}
    {fs : Fs} {sec : String} {m : OptMap} {p : String} {st : FileState}
    (hvo : checkValidOptions eng.valid_options m = true) :
    (fs.lookup p = some st → st.writable = true → st.parseOk = true →
      hasStr (sectionNames st.sections) sec = true →
      TripleOYumConfig.add_section eng ex fs sec m p =
        .error (.invalidSection, fs))
    ∧ (getConfigFiles eng fs sec = [] →
      TripleOYumConfig.update_section eng ex fs sec m none =
        .error (.notFound, fs)) := by
  constructor
  · intro hlk hw hp hs
    simp [TripleOYumConfig.add_section, hvo,
      readConfigFile_direct eng hlk hw hp, hs]
  · intro hempty
    simp [TripleOYumConfig.update_section, hvo, hempty]

/-- C4 witness: adding the existing section `foo` with a whitelisted map
fails `InvalidSection`; updating the section `nowhere`, contained in no
file, fails `NotFound`. -/
theorem add_update_disjoint_witness :
    (TripleOYumConfig.add_section ⟨some ["baseurl"], some "/d", some ".repo"⟩
        (fun s => s)
        (Fs.mk [("/d/a.repo",
          ⟨[("foo", [("baseurl", "old")])], true, true⟩)] ["/d"])
        "foo" [("baseurl", "x")] "/d/a.repo" =
      .error (.invalidSection,
        Fs.mk [("/d/a.repo",
          ⟨[("foo", [("baseurl", "old")])], true, true⟩)] ["/d"]))
    ∧ (TripleOYumConfig.update_section
        ⟨some ["baseurl"], some "/d", some ".repo"⟩ (fun s => s)
        (Fs.mk [("/d/a.repo",
          ⟨[("foo", [("baseurl", "old")])], true, true⟩)] ["/d"])
        "nowhere" [("baseurl", "x")] none =
      .error (.notFound,
        Fs.mk [("/d/a.repo",
          ⟨[("foo", [("baseurl", "old")])], true, true⟩)] ["/d"])) := by
  have h := @add_update_disjoint ⟨some ["baseurl"], some "/d", some ".repo"⟩
    (fun s => s)
    (Fs.mk [("/d/a.repo",
      ⟨[("foo", [("baseurl", "old")])], true, true⟩)] ["/d"])
    "foo" [("baseurl", "x")] "/d/a.repo"
    ⟨[("foo", [("baseurl", "old")])], true, true⟩ (by decide)
  have h2 := @add_update_disjoint ⟨some ["baseurl"], some "/d", some ".repo"⟩
    (fun s => s)
    (Fs.mk [("/d/a.repo",
      ⟨[("foo", [("baseurl", "old")])], true, true⟩)] ["/d"])
    "nowhere" [("baseurl", "x")] "/d/a.repo"
    ⟨[("foo", [("baseurl", "old")])], true, true⟩ (by decide)
  exact ⟨h.1 rfl rfl rfl (by decide), h2.2 (by decide)⟩

theorem hasKey_iff {d : OptMap} {k : String} :
    hasKey d k = true ↔ k ∈ d.map (·.1) := by
  induction d with
  | nil => simp [hasKey]
  | cons e t ih =>
      simp only [hasKey, Bool.or_eq_true, beq_iff_eq, ih, List.map_cons,
        List.mem_cons]
      constructor
      · rintro (h | h)
        · exact Or.inl h.symm
        · exact Or.inr h
      · rintro (h | h)
        · exact Or.inl h.symm
        · exact Or.inr h

theorem setOption_isEmpty (o : OptMap) (k v : String) :
    (setOption o k v).isEmpty = false := by
  cases o with
  | nil => rfl
  | cons e t => by_cases he : e.1 = k <;> simp [setOption, he]

theorem setOption_mem_self (d : OptMap) (k v : String) :
    (k, v) ∈ setOption d k v := by
  induction d with
  | nil => simp [setOption]
  | cons e t ih => by_cases he : e.1 = k <;> simp [setOption, he, ih]

theorem keys_setOption (d : OptMap) (k v : String) :
    (setOption d k v).map (·.1) =
      if hasKey d k then d.map (·.1) else d.map (·.1) ++ [k] := by
  induction d with
  | nil => simp [setOption, hasKey]
  | cons e t ih =>
      by_cases he : e.1 = k
      · simp [setOption, he, hasKey]
      · simp only [setOption, beq_iff_eq, he, if_false, List.map_cons,
          hasKey, Bool.or_eq_true]
        rw [ih]
        by_cases ht : hasKey t k = true
        · simp [ht, he]
        · simp only [Bool.not_eq_true] at ht
          simp [ht, he]

theorem all_keys_setOption {wl : List String} {d : OptMap} {k : String}
    (v : String) (hd : d.all (fun e => hasStr wl e.1) = true)
    (hk : hasStr wl k = true) :
    (setOption d k v).all (fun e => hasStr wl e.1) = true := by
  induction d with
  | nil => simp [setOption, hk]
  | cons e t ih =>
      simp only [List.all_cons, Bool.and_eq_true] at hd
      by_cases he : e.1 = k
      · simp [setOption, he, hk, hd.2]
      · simp [setOption, he, hd.1, ih hd.2]

theorem optionxform_of_supported {k : String}
    (hk : hasStr YUM_REPO_SUPPORTED_OPTIONS k = true) :
    optionxform k = k := by
  rw [hasStr_iff] at hk
  simp only [YUM_REPO_SUPPORTED_OPTIONS, List.mem_cons,
    List.not_mem_nil, or_false] at hk
  rcases hk with h|h|h|h|h|h|h|h|h|h|h|h|h|h <;> subst h <;> decide

theorem lowered_keys_eq {d : OptMap}
    (hsub : d.all (fun e => hasStr YUM_REPO_SUPPORTED_OPTIONS e.1) = true) :
    d.map (fun e => optionxform e.1) = d.map (·.1) := by
  induction d with
  | nil => rfl
  | cons e t ih =>
      simp only [List.all_cons, Bool.and_eq_true] at hsub
      simp only [List.map_cons]
      rw [optionxform_of_supported hsub.1, ih hsub.2]

theorem getSection_append_fresh {ss : IniDoc} {sec : String}
    (hs : hasStr (sectionNames ss) sec = false) (o : OptMap) :
    getSection (ss ++ [(sec, o)]) sec = some o := by
  induction ss with
  | nil => simp [getSection]
  | cons e t ih =>
      simp only [sectionNames, List.map_cons, hasStr,
        Bool.or_eq_false_iff] at hs
      simp only [List.cons_append, getSection]
      rw [if_neg (by simpa using hs.1)]
      exact ih (by simpa [sectionNames] using hs.2)

/-- C6: in the repo-config variant, the `enabled` convenience flag is
translated before delegation.  For both `update_section` and
`add_section`: `enabled=True` stores `"1"` under the `enabled` key,
`enabled=False` stores `"0"`, and `enabled=None` leaves the `enabled` key
untouched when already present in the section and absent when not (the
option map itself not naming `enabled`).  Hypotheses: `ex` is
`os.path.expandvars`, which is the identity on the `$`-free strings
`"1"`/`"0"`; the option map is a dict (no repeated raw keys) whose keys
pass the repo whitelist (otherwise `InvalidOption` pre-empts). -/
theorem repo_enabled_translation {eng : TripleOYumConfig}
    {urls : String → Option IniDoc} {ex : String → String} {fs : Fs}
    {sec : String} {d : OptMap} {p : String} {st : FileState}
    (hex1 : ex "1" = "1") (hex0 : ex "0" = "0")
    (heng : eng.valid_options = some YUM_REPO_SUPPORTED_OPTIONS)
    (hlk : fs.lookup p = some st) (hw : st.writable = true)
    (hp : st.parseOk = true)
    (hnd : (d.map (·.1)).Nodup)
    (hsub : d.all (fun e => hasStr YUM_REPO_SUPPORTED_OPTIONS e.1) = true) :
    (∀ b : Bool, ∀ o, getSection st.sections sec = some o →
      ∃ fs' st', TripleOYumRepoConfig.update_section eng urls ex fs sec
          (some d) (some p) (some b) none = .ok fs'
        ∧ fs'.lookup p = some st'
        ∧ lookupOpt ((getSection st'.sections sec).getD []) "enabled" =
            some (if b then "1" else "0"))
    ∧ (∀ o, getSection st.sections sec = some o → d ≠ [] →
        "enabled" ∉ d.map (fun e => optionxform e.1) →
      ∃ fs' st', TripleOYumRepoConfig.update_section eng urls ex fs sec
          (some d) (some p) none none = .ok fs'
        ∧ fs'.lookup p = some st'
        ∧ lookupOpt ((getSection st'.sections sec).getD []) "enabled" =
            lookupOpt o "enabled")
    ∧ (∀ b : Bool, hasStr (sectionNames st.sections) sec = false →
      ∃ fs' st', TripleOYumRepoConfig.add_section eng urls ex fs sec d p
          (some b) none = .ok fs'
        ∧ fs'.lookup p = some st'
        ∧ lookupOpt ((getSection st'.sections sec).getD []) "enabled" =
            some (if b then "1" else "0"))
    ∧ (hasStr (sectionNames st.sections) sec = false →
        "enabled" ∉ d.map (fun e => optionxform e.1) →
      ∃ fs' st', TripleOYumRepoConfig.add_section eng urls ex fs sec d p
          none none = .ok fs'
        ∧ fs'.lookup p = some st'
        ∧ lookupOpt ((getSection st'.sections sec).getD []) "enabled" =
            none) := by
  have hud1 : (if d.isEmpty then ([] : OptMap) else dictUpdate [] d) = d := by
    cases d with
    | nil => rfl
    | cons e t =>
        simp only [List.isEmpty_cons, Bool.false_eq_true, if_false]
        exact dictUpdate_nil hnd
  have hvo_d : checkValidOptions eng.valid_options d = true := by
    rw [heng]; simp [checkValidOptions, hsub]
  have hall2 : ∀ w : String, (setOption d "enabled" w).all
      (fun e => hasStr YUM_REPO_SUPPORTED_OPTIONS e.1) = true :=
    fun w => all_keys_setOption w hsub (by decide)
  have hvo2 : ∀ w : String, checkValidOptions eng.valid_options
      (setOption d "enabled" w) = true := by
    intro w
    rw [heng]; simp [checkValidOptions, hall2 w]
  have hknd : ∀ w : String,
      ((setOption d "enabled" w).map (·.1)).Nodup := by
    intro w
    rw [keys_setOption]
    by_cases hk : hasKey d "enabled" = true
    · simp only [hk, if_true]; exact hnd
    · simp only [Bool.not_eq_true] at hk
      rw [if_neg (by simp [hk])]
      refine List.Nodup.append hnd (List.nodup_singleton _) ?_
      intro a ha hb
      simp only [List.mem_singleton] at hb
      subst hb
      rw [← hasKey_iff] at ha
      simp [ha] at hk
  have hnd2 : ∀ w : String,
      ((expandMap ex (setOption d "enabled" w)).map
        (fun e => optionxform e.1)).Nodup := by
    intro w
    rw [expandMap_xform_keys, lowered_keys_eq (hall2 w)]
    exact hknd w
  have hlook : ∀ (b : Bool) (o : OptMap),
      lookupOpt (updateOptions o
        (expandMap ex (setOption d "enabled" (if b then "1" else "0"))))
        "enabled" = some (if b then "1" else "0") := by
    intro b o
    have hmem2 : ("enabled", ex (if b then "1" else "0")) ∈
        expandMap ex (setOption d "enabled" (if b then "1" else "0")) :=
      List.mem_map_of_mem _ (setOption_mem_self d "enabled" _)
    have hres := @lookupOpt_updateOptions_mem o "enabled"
      (ex (if b then "1" else "0")) _ (hnd2 _) hmem2
    rw [show optionxform "enabled" = "enabled" from by decide] at hres
    rw [hres]
    cases b <;> simp [hex0, hex1]
  refine ⟨?_, ?_, ?_, ?_⟩
  · intro b o ho
    have hcall : TripleOYumRepoConfig.update_section eng urls ex fs sec
        (some d) (some p) (some b) none =
        TripleOYumConfig.update_section eng ex fs sec
          (setOption d "enabled" (if b then "1" else "0")) (some p) := by
      simp only [TripleOYumRepoConfig.update_section]
      rw [hud1]
      rw [if_neg (by simp [setOption_isEmpty])]
    refine ⟨_, _, hcall.trans (update_section_direct (hvo2 _) hlk hw hp
      (getSection_some_hasStr ho)), Fs.lookup_write_self _ _ _, ?_⟩
    rw [getSection_updateConfigSection_self _ ho]
    simp only [Option.getD_some]
    exact hlook b o
  · intro o ho hdne hnen
    have hde : d.isEmpty = false := by
      cases d with
      | nil => exact absurd rfl hdne
      | cons e t => rfl
    have hcall : TripleOYumRepoConfig.update_section eng urls ex fs sec
        (some d) (some p) none none =
        TripleOYumConfig.update_section eng ex fs sec d (some p) := by
      simp only [TripleOYumRepoConfig.update_section]
      rw [hud1, hde]
      simp
    refine ⟨_, _, hcall.trans (update_section_direct hvo_d hlk hw hp
      (getSection_some_hasStr ho)), Fs.lookup_write_self _ _ _, ?_⟩
    rw [getSection_updateConfigSection_self _ ho]
    simp only [Option.getD_some]
    apply lookupOpt_updateOptions_not_mem
    rw [expandMap_xform_keys]
    exact hnen
  · intro b hsF
    have hcall : TripleOYumRepoConfig.add_section eng urls ex fs sec d p
        (some b) none =
        TripleOYumConfig.add_section eng ex fs sec
          (setOption d "enabled" (if b then "1" else "0")) p := by
      simp only [TripleOYumRepoConfig.add_section]
      rw [dictUpdate_nil hnd]
    refine ⟨_, _, hcall.trans (add_section_direct (hvo2 _) hlk hw hp hsF),
      Fs.lookup_write_self _ _ _, ?_⟩
    rw [getSection_updateConfigSection_self _
      (getSection_append_fresh hsF [])]
    simp only [Option.getD_some]
    exact hlook b []
  · intro hsF hnen
    have hcall : TripleOYumRepoConfig.add_section eng urls ex fs sec d p
        none none =
        TripleOYumConfig.add_section eng ex fs sec d p := by
      simp only [TripleOYumRepoConfig.add_section]
      rw [dictUpdate_nil hnd]
    refine ⟨_, _, hcall.trans (add_section_direct hvo_d hlk hw hp hsF),
      Fs.lookup_write_self _ _ _, ?_⟩
    rw [getSection_updateConfigSection_self _
      (getSection_append_fresh hsF [])]
    simp only [Option.getD_some]
    rw [lookupOpt_updateOptions_not_mem ?_]
    · rfl
    · rw [expandMap_xform_keys]
      exact hnen

/-- C6 witness: concrete runs on `/d/a.repo` (section `foo` holding
`baseurl=old, enabled=0`): updating with `enabled=True`/`False` stores
`"1"`/`"0"`; updating with `enabled=None` leaves `enabled=0` untouched;
adding section `bar` with `enabled=True` stores `"1"`, and with
`enabled=None` the new section has no `enabled` key. -/
theorem repo_enabled_translation_witness :
    (∃ fs' st', TripleOYumRepoConfig.update_section (repoEngine (some "/d"))
        (fun _ => none) (fun s => s)
        (Fs.mk [("/d/a.repo", ⟨[("foo",
          [("baseurl", "old"), ("enabled", "0")])], true, true⟩)] ["/d"])
        "foo" (some [("baseurl", "new")]) (some "/d/a.repo") (some true)
        none = .ok fs'
      ∧ fs'.lookup "/d/a.repo" = some st'
      ∧ lookupOpt ((getSection st'.sections "foo").getD []) "enabled" =
          some "1")
    ∧ (∃ fs' st', TripleOYumRepoConfig.update_section (repoEngine (some "/d"))
        (fun _ => none) (fun s => s)
        (Fs.mk [("/d/a.repo", ⟨[("foo",
          [("baseurl", "old"), ("enabled", "0")])], true, true⟩)] ["/d"])
        "foo" (some [("baseurl", "new")]) (some "/d/a.repo") (some false)
        none = .ok fs'
      ∧ fs'.lookup "/d/a.repo" = some st'
      ∧ lookupOpt ((getSection st'.sections "foo").getD []) "enabled" =
          some "0")
    ∧ (∃ fs' st', TripleOYumRepoConfig.update_section (repoEngine (some "/d"))
        (fun _ => none) (fun s => s)
        (Fs.mk [("/d/a.repo", ⟨[("foo",
          [("baseurl", "old"), ("enabled", "0")])], true, true⟩)] ["/d"])
        "foo" (some [("baseurl", "new")]) (some "/d/a.repo") none
        none = .ok fs'
      ∧ fs'.lookup "/d/a.repo" = some st'
      ∧ lookupOpt ((getSection st'.sections "foo").getD []) "enabled" =
          some "0")
    ∧ (∃ fs' st', TripleOYumRepoConfig.add_section (repoEngine (some "/d"))
        (fun _ => none) (fun s => s)
        (Fs.mk [("/d/a.repo", ⟨[("foo",
          [("baseurl", "old"), ("enabled", "0")])], true, true⟩)] ["/d"])
        "bar" [("baseurl", "new")] "/d/a.repo" (some true) none = .ok fs'
      ∧ fs'.lookup "/d/a.repo" = some st'
      ∧ lookupOpt ((getSection st'.sections "bar").getD []) "enabled" =
          some "1")
    ∧ (∃ fs' st', TripleOYumRepoConfig.add_section (repoEngine (some "/d"))
        (fun _ => none) (fun s => s)
        (Fs.mk [("/d/a.repo", ⟨[("foo",
          [("baseurl", "old"), ("enabled", "0")])], true, true⟩)] ["/d"])
        "bar" [("baseurl", "new")] "/d/a.repo" none none = .ok fs'
      ∧ fs'.lookup "/d/a.repo" = some st'
      ∧ lookupOpt ((getSection st'.sections "bar").getD []) "enabled" =
          none) := by
  have h1 := @repo_enabled_translation (repoEngine (some "/d"))
    (fun _ => none) (fun s => s)
    (Fs.mk [("/d/a.repo", ⟨[("foo",
      [("baseurl", "old"), ("enabled", "0")])], true, true⟩)] ["/d"])
    "foo" [("baseurl", "new")] "/d/a.repo"
    ⟨[("foo", [("baseurl", "old"), ("enabled", "0")])], true, true⟩
    rfl rfl rfl (by decide) rfl rfl (by decide) (by decide)
  have h2 := @repo_enabled_translation (repoEngine (some "/d"))
    (fun _ => none) (fun s => s)
    (Fs.mk [("/d/a.repo", ⟨[("foo",
      [("baseurl", "old"), ("enabled", "0")])], true, true⟩)] ["/d"])
    "bar" [("baseurl", "new")] "/d/a.repo"
    ⟨[("foo", [("baseurl", "old"), ("enabled", "0")])], true, true⟩
    rfl rfl rfl (by decide) rfl rfl (by decide) (by decide)
  refine ⟨?_, ?_, ?_, ?_, ?_⟩
  · exact h1.1 true [("baseurl", "old"), ("enabled", "0")] (by decide)
  · exact h1.1 false [("baseurl", "old"), ("enabled", "0")] (by decide)
  · exact h1.2.1 [("baseurl", "old"), ("enabled", "0")] (by decide)
      (by decide) (by decide)
  · exact h2.2.2.1 true (by decide)
  · exact h2.2.2.2 (by decide) (by decide)

theorem updateOptions_nil_expand {m : OptMap} (ex : String → String)
    (hnd : (m.map (fun e => optionxform e.1)).Nodup) :
    updateOptions [] (expandMap ex m) =
      m.map (fun e => (optionxform e.1, ex e.2)) := by
  rw [updateOptions_fresh [] ?_ (fun x _ => rfl)]
  · rw [List.nil_append, expandMap, List.map_map]
    rfl
  · rw [expandMap_xform_keys]
    exact hnd

/-- C7: `add_or_update_section` on a nonexistent file path with
`create_if_not_exists=True`: the inner `update_section` fails `NotFound`,
the file is created, and `add_section` writes a single section holding
exactly the option map's entries (keys lowercased, values expanded) plus
`name = <section>` appended, since the map lacks a `name` key. -/
theorem addOrUpdate_creates_file {eng : TripleOYumConfig}
    {urls : String → Option IniDoc} {ex : String → String} {fs : Fs}
    {sec : String} {d : OptMap} {p dd : String}
    (heng : eng.valid_options = some YUM_REPO_SUPPORTED_OPTIONS)
    (hdir : eng.dir_path = some dd)
    (hlk : fs.lookup p = none) (hj : fs.lookup (pathJoin dd p) = none)
    (hnd : (d.map (·.1)).Nodup)
    (hsub : d.all (fun e => hasStr YUM_REPO_SUPPORTED_OPTIONS e.1) = true)
    (hname : hasKey d "name" = false) :
    TripleOYumRepoConfig.add_or_update_section eng urls ex fs sec (some d)
      (some p) none true none =
      .ok (fs.write p ⟨[(sec,
        (d ++ [("name", sec)]).map (fun e => (optionxform e.1, ex e.2)))],
        true, true⟩) := by
  have hnamem : "name" ∉ d.map (·.1) := by
    intro hmem
    rw [← hasKey_iff] at hmem
    simp [hmem] at hname
  have hnd2 : ((d ++ [("name", sec)]).map (·.1)).Nodup := by
    rw [List.map_append]
    refine List.Nodup.append hnd (List.nodup_singleton _) ?_
    intro a ha hb
    simp only [List.map_cons, List.map_nil, List.mem_singleton] at hb
    subst hb
    exact hnamem ha
  have hall2 : (d ++ [("name", sec)]).all
      (fun e => hasStr YUM_REPO_SUPPORTED_OPTIONS e.1) = true := by
    rw [List.all_append]
    simp [hsub]
    decide
  have hvo2 : checkValidOptions eng.valid_options (d ++ [("name", sec)]) =
      true := by
    rw [heng]; simp [checkValidOptions, hall2]
  have hns1 : dictUpdate [] d = d := dictUpdate_nil hnd
  have hns2up : dictUpdate [] (d ++ [("name", sec)]) =
      d ++ [("name", sec)] := dictUpdate_nil hnd2
  have hne2 : (d ++ [("name", sec)]).isEmpty = false := by
    cases d <;> rfl
  have hread : readConfigFile eng fs p (some sec) = .error .notFound := by
    unfold readConfigFile
    rw [show findValid fs (fileCandidates eng p) = none by
      simp [fileCandidates, hdir, findValid, validated_file_path,
        Fs.isfile, Fs.accessW, hlk, hj]]
  have hupd : TripleOYumRepoConfig.update_section eng urls ex fs sec
      (some (d ++ [("name", sec)])) (some p) none none =
      .error (.notFound, fs) := by
    simp only [TripleOYumRepoConfig.update_section, hne2,
      Bool.false_eq_true, if_false, hns2up]
    simp [TripleOYumConfig.update_section, hvo2, updateFilesLoop, hread]
  have hndlow : ((d ++ [("name", sec)]).map
      (fun e => optionxform e.1)).Nodup := by
    rw [lowered_keys_eq hall2]
    exact hnd2
  have hsingle : updateConfigSection [(sec, [])] sec
      (expandMap ex (d ++ [("name", sec)])) =
      [(sec, updateOptions [] (expandMap ex (d ++ [("name", sec)])))] := by
    simp [updateConfigSection]
  have hadd : TripleOYumRepoConfig.add_section eng urls ex
      (fs.write p emptyFile) sec (d ++ [("name", sec)]) p none none =
      .ok ((fs.write p emptyFile).write p ⟨[(sec,
        (d ++ [("name", sec)]).map (fun e => (optionxform e.1, ex e.2)))],
        true, true⟩) := by
    simp only [TripleOYumRepoConfig.add_section, hns2up]
    rw [add_section_direct hvo2 (Fs.lookup_write_self fs p emptyFile) rfl
      rfl rfl]
    simp only [emptyFile, List.nil_append]
    rw [hsingle, updateOptions_nil_expand ex hndlow]
  have hif : (if hasKey d "name" then d else d ++ [("name", sec)]) =
      d ++ [("name", sec)] := by
    rw [hname]
    simp
  simp only [TripleOYumRepoConfig.add_or_update_section, hns1]
  rw [hif, hupd]
  simp only [hadd, Fs.write_write]
  simp

/-- C7 witness: scenario C — `addOrUpdateSection("bar", {"baseurl": "x"},
file_path="missing.repo", create_if_not_exists=True)` on a nonexistent
file creates it containing `[bar] baseurl=x, name=bar`. -/
theorem addOrUpdate_creates_file_witness :
    TripleOYumRepoConfig.add_or_update_section (repoEngine (some "/d"))
      (fun _ => none) (fun s => s) (Fs.mk [] ["/d"]) "bar"
      (some [("baseurl", "x")]) (some "missing.repo") none true none =
      .ok (Fs.mk [("missing.repo",
        ⟨[("bar", [("baseurl", "x"), ("name", "bar")])], true, true⟩)]
        ["/d"]) := by
  have h := @addOrUpdate_creates_file (repoEngine (some "/d"))
    (fun _ => none) (fun s => s) (Fs.mk [] ["/d"]) "bar"
    [("baseurl", "x")] "missing.repo" "/d"
    rfl rfl rfl rfl (by decide) (by decide) (by decide)
  rw [h]
  decide

/-- Forward evaluation of `add_section` when the target file is a valid
file that already contains the section: `InvalidSection`, no write. -/
theorem add_section_existing {eng : TripleOYumConfig} {ex : String → String}
    {fs : Fs} {sec : String} {m : OptMap} {p : String} {st : FileState}
    (hvo : checkValidOptions eng.valid_options m = true)
    (hlk : fs.lookup p = some st) (hw : st.writable = true)
    (hp : st.parseOk = true)
    (hs : hasStr (sectionNames st.sections) sec = true) :
    TripleOYumConfig.add_section eng ex fs sec m p =
      .error (.invalidSection, fs) := by
  simp [TripleOYumConfig.add_section, hvo,
    readConfigFile_direct eng hlk hw hp, hs]

theorem composeAddDict_valid (c : ComposeRepoConfig) (v burl : String) :
    checkValidOptions (some YUM_REPO_SUPPORTED_OPTIONS)
      (composeAddDict c v burl) = true := by
  simp only [checkValidOptions, composeAddDict, List.all_cons, List.all_nil]
  decide

theorem composeAddDict_keys_nodup (c : ComposeRepoConfig) (v burl : String) :
    ((composeAddDict c v burl).map (fun e => optionxform e.1)).Nodup := by
  simp only [composeAddDict, List.map_cons, List.map_nil]
  decide

/-- C8: for a requested compose variant, `enable_compose_repos` writes one
repo section `{name: "<composeId> <variant>", baseurl: <pinned URL joined
with the arch path>, enabled: "1", gpgcheck: "0"}` into
`<composeId>-<variant>.repo` under the repo directory — creating the file
when absent and adding the section, and falling back to `update_section`
when the section already exists — and silently skips a variant without a
repository path for the configured architecture; concretely
(scenario D), with variants `AppStream` (x86_64 path present) and
`BaseOS` (none) and `arch=x86_64`, exactly one section is written and
`BaseOS` is skipped without error. -/
theorem enableComposeRepos_spec {c : ComposeRepoConfig}
    {ex : String → String} {fs : Fs} {v burl : String} {st : FileState}
    (hv : hasStr (variantNames c) v = true) :
    (c.getRepoBaseUrl v = none →
      c.enable_compose_repos ex fs (some [v]) false = .ok fs)
    ∧ (c.getRepoBaseUrl v = some burl →
      fs.lookup (pathJoin c.dir_path (c.repoFilename v)) = none →
      c.enable_compose_repos ex fs (some [v]) false =
        .ok (fs.write (pathJoin c.dir_path (c.repoFilename v))
          ⟨[(strLower v, (composeAddDict c v burl).map
            (fun e => (optionxform e.1, ex e.2)))], true, true⟩))
    ∧ (c.getRepoBaseUrl v = some burl →
      fs.lookup (pathJoin c.dir_path (c.repoFilename v)) = some st →
      st.writable = true → st.parseOk = true →
      hasStr (sectionNames st.sections) (strLower v) = true →
      c.enable_compose_repos ex fs (some [v]) false =
        .ok (fs.write (pathJoin c.dir_path (c.repoFilename v))
          ⟨updateConfigSection st.sections (strLower v)
            (expandMap ex (composeAddDict c v burl)), true, true⟩))
    ∧ ComposeRepoConfig.enable_compose_repos
        ⟨"c1", "https://u/c1", "x86_64", "/d",
         [("AppStream", [("x86_64", "AppStream/x86_64/os")]),
          ("BaseOS", [])]⟩ (fun s => s) (Fs.mk [] ["/d"]) none false =
        .ok (Fs.mk [("/d/c1-AppStream.repo",
          ⟨[("appstream",
            [("name", "c1 AppStream"),
             ("baseurl", "https://u/c1/AppStream/x86_64/os"),
             ("enabled", "1"), ("gpgcheck", "0")])], true, true⟩)]
          ["/d"]) := by
  have hassemble : ∀ (res : Fs) (rep : List (String × String)),
      enableLoop c ex [v] fs [] = .ok (res, rep) →
      c.enable_compose_repos ex fs (some [v]) false = .ok res := by
    intro res rep hloop
    simp only [ComposeRepoConfig.enable_compose_repos, List.isEmpty_cons,
      Bool.false_eq_true, if_false, List.all_cons, List.all_nil, hv,
      Bool.and_true, if_true, hloop]
  refine ⟨?_, ?_, ?_, ?_⟩
  · intro hb
    exact hassemble fs [] (by simp only [enableLoop, hb])
  · intro hb hlk0
    have haddc : ComposeRepoConfig.add_section c ex fs (strLower v)
        (composeAddDict c v burl)
        (pathJoin c.dir_path (c.repoFilename v)) =
        .ok (fs.write (pathJoin c.dir_path (c.repoFilename v))
          ⟨[(strLower v, (composeAddDict c v burl).map
            (fun e => (optionxform e.1, ex e.2)))], true, true⟩) := by
      simp only [ComposeRepoConfig.add_section, Fs.isfile, hlk0,
        Option.isSome_none, Bool.false_eq_true, if_false]
      rw [add_section_direct (composeAddDict_valid c v burl)
        (Fs.lookup_write_self fs _ emptyFile) rfl rfl rfl]
      simp only [emptyFile, List.nil_append]
      rw [show updateConfigSection [(strLower v, [])] (strLower v)
          (expandMap ex (composeAddDict c v burl)) =
          [(strLower v, updateOptions []
            (expandMap ex (composeAddDict c v burl)))] from by
        simp [updateConfigSection]]
      rw [updateOptions_nil_expand ex (composeAddDict_keys_nodup c v burl),
        Fs.write_write]
    refine hassemble _ (setOption [] (strLower v)
      (pathJoin c.dir_path (c.repoFilename v))) ?_
    simp only [enableLoop, hb, haddc]
  · intro hb hlk0 hw hp hsec
    have haddc : ComposeRepoConfig.add_section c ex fs (strLower v)
        (composeAddDict c v burl)
        (pathJoin c.dir_path (c.repoFilename v)) =
        .error (.invalidSection, fs) := by
      simp only [ComposeRepoConfig.add_section, Fs.isfile, hlk0,
        Option.isSome_some, if_true]
      exact add_section_existing (composeAddDict_valid c v burl) hlk0 hw hp
        hsec
    have hupdc : ComposeRepoConfig.update_section c ex fs (strLower v)
        (some (composeAddDict c v burl)) none
        (some (pathJoin c.dir_path (c.repoFilename v))) =
        .ok (fs.write (pathJoin c.dir_path (c.repoFilename v))
          ⟨updateConfigSection st.sections (strLower v)
            (expandMap ex (composeAddDict c v burl)), true, true⟩) := by
      simp only [ComposeRepoConfig.update_section, Option.getD_some]
      rw [if_neg (by simp [composeAddDict])]
      exact update_section_direct (composeAddDict_valid c v burl) hlk0 hw hp
        hsec
    refine hassemble _ (setOption [] (strLower v)
      (pathJoin c.dir_path (c.repoFilename v))) ?_
    simp only [enableLoop, hb, haddc, hupdc]
  · decide

/-- C8 witness: on concrete compose `c1`, requesting `AppStream` writes
one file with one section; requesting `BaseOS` (no `x86_64` path) is a
silent no-op. -/
theorem enableComposeRepos_spec_witness :
    ComposeRepoConfig.enable_compose_repos
      ⟨"c1", "https://u/c1", "x86_64", "/d",
       [("AppStream", [("x86_64", "AppStream/x86_64/os")]), ("BaseOS", [])]⟩
      (fun s => s) (Fs.mk [] ["/d"]) (some ["AppStream"]) false =
      .ok (Fs.mk [("/d/c1-AppStream.repo",
        ⟨[("appstream",
          [("name", "c1 AppStream"),
           ("baseurl", "https://u/c1/AppStream/x86_64/os"),
           ("enabled", "1"), ("gpgcheck", "0")])], true, true⟩)] ["/d"])
    ∧ ComposeRepoConfig.enable_compose_repos
      ⟨"c1", "https://u/c1", "x86_64", "/d",
       [("AppStream", [("x86_64", "AppStream/x86_64/os")]), ("BaseOS", [])]⟩
      (fun s => s) (Fs.mk [] ["/d"]) (some ["BaseOS"]) false =
      .ok (Fs.mk [] ["/d"]) := by
  have h1 := @enableComposeRepos_spec
    ⟨"c1", "https://u/c1", "x86_64", "/d",
     [("AppStream", [("x86_64", "AppStream/x86_64/os")]), ("BaseOS", [])]⟩
    (fun s => s) (Fs.mk [] ["/d"]) "AppStream"
    "https://u/c1/AppStream/x86_64/os" emptyFile (by decide)
  have h2 := @enableComposeRepos_spec
    ⟨"c1", "https://u/c1", "x86_64", "/d",
     [("AppStream", [("x86_64", "AppStream/x86_64/os")]), ("BaseOS", [])]⟩
    (fun s => s) (Fs.mk [] ["/d"]) "BaseOS" "" emptyFile (by decide)
  constructor
  · have hres := h1.2.1 (by decide) (by decide)
    rw [hres]
    decide
  · exact h2.1 (by decide)
